import Mathlib

/-!
Verification of the Foundry MaaS proxy (`app.py`, `main.py`).

The development shallowly embeds the parts of the code the claims are
about: the streaming `<think>` filter state machine, the whole-text
regex-based filter `strip_think_tags`, the bearer-token checks of both
proxy variants, the request translator that builds the upstream body,
and the SSE event loop of the streaming handler.  Strings are modelled
as `List Char`; Python dicts carrying JSON values are modelled as
association lists over a JSON value type.
-/

namespace FoundryProxy

/-! ## The delimiters -/

/-- The open delimiter string. -/
def OPEN : List Char := ['<', 't', 'h', 'i', 'n', 'k', '>']

/-- The close delimiter string. -/
def CLOSE : List Char := ['<', '/', 't', 'h', 'i', 'n', 'k', '>']

/-! ## StreamingThinkFilter (app.py lines 114-182)

The mutable object state `(self.inside_think, self.tag_buffer)` is the
`FilterState`; `process_text` threads it explicitly.  (`self.buffer` is
set in `__init__` but never read or written afterwards, so it is
omitted.) -/

structure FilterState where
  inside_think : Bool
  tag_buffer : List Char
deriving DecidableEq, Repr

/-- The state of a freshly constructed `StreamingThinkFilter`. -/
def initState : FilterState := ⟨false, []⟩

/-- One iteration of the `while` loop of `process_text`: consume the
character `c`, returning the new state and the characters appended to
`output` during this iteration.  Mirrors app.py lines 131-172:
Python's `"<think>".startswith(b)` is `b.isPrefixOf OPEN`. -/
def step (st : FilterState) (c : Char) : FilterState × List Char :=
  if st.inside_think = false then
    if c = '<' then
      (⟨false, st.tag_buffer ++ [c]⟩, [])
    else if st.tag_buffer ≠ [] then
      let b := st.tag_buffer ++ [c]
      if b = OPEN then (⟨true, []⟩, [])
      else if b.isPrefixOf OPEN then (⟨false, b⟩, [])
      else (⟨false, []⟩, b)
    else
      (st, [c])
  else
    if c = '<' then
      (⟨true, st.tag_buffer ++ [c]⟩, [])
    else if st.tag_buffer ≠ [] then
      let b := st.tag_buffer ++ [c]
      if b = CLOSE then (⟨false, []⟩, [])
      else if b.isPrefixOf CLOSE then (⟨true, b⟩, [])
      else (⟨true, []⟩, [])
    else
      (st, [])

/-- `StreamingThinkFilter.process_text`: run `step` over the characters
of one fragment, collecting the emitted output. -/
def process_text (st : FilterState) : List Char → FilterState × List Char
  | [] => (st, [])
  | c :: rest =>
    let s1 := step st c
    let s2 := process_text s1.1 rest
    (s2.1, s1.2 ++ s2.2)

/-- `StreamingThinkFilter.flush` (app.py lines 176-182): emit the
pending tag buffer only when not inside a think block. -/
def flush (st : FilterState) : List Char :=
  if st.tag_buffer ≠ [] ∧ st.inside_think = false then st.tag_buffer else []

/-- Feed a sequence of fragments one by one through the filter,
concatenating the per-fragment outputs. -/
def processChunks (st : FilterState) : List (List Char) → FilterState × List Char
  | [] => (st, [])
  | f :: fs =>
    let s1 := process_text st f
    let s2 := processChunks s1.1 fs
    (s2.1, s1.2 ++ s2.2)

/-- Whole-stream run: process `s` as a single fragment from a fresh
filter, then append the flush. -/
def filterRun (s : List Char) : List Char :=
  (process_text initState s).2 ++ flush (process_text initState s).1

/-- Chunked run: feed the fragments one by one from a fresh filter,
concatenate outputs, then append the flush. -/
def chunkedRun (frags : List (List Char)) : List Char :=
  (processChunks initState frags).2 ++ flush (processChunks initState frags).1

/-! ## Basic composition lemmas -/

theorem process_text_append (st : FilterState) (a b : List Char) :
    process_text st (a ++ b) =
      ((process_text (process_text st a).1 b).1,
        (process_text st a).2 ++ (process_text (process_text st a).1 b).2) := by
  induction a generalizing st with
  | nil => simp [process_text]
  | cons c rest ih =>
    simp only [List.cons_append, process_text, List.append_eq]
    rw [ih]
    simp [List.append_assoc]

theorem processChunks_eq_join (st : FilterState) (frags : List (List Char)) :
    processChunks st frags = process_text st frags.flatten := by
  induction frags generalizing st with
  | nil => simp [processChunks, process_text]
  | cons f fs ih =>
    simp only [List.flatten_cons, processChunks]
    rw [ih, process_text_append]

/-! ## Well-formed inputs for the chunk-invariance claim -/

/-- A segment of a well-formed stream: either ordinary text or one
complete `<think>`…`</think>` span. -/
inductive Seg where
  | plain : List Char → Seg
  | think : List Char → Seg

/-- The text denoted by one segment. -/
def Seg.render : Seg → List Char
  | .plain t => t
  | .think b => OPEN ++ b ++ CLOSE

/-- The text denoted by a list of segments: well-formed spans
interleaved with ordinary text. -/
def renderSegs (l : List Seg) : List Char := (l.map Seg.render).flatten

/-- C1: chunk-invariance of the streaming filter.  For every string
consisting of zero or more well-formed think spans interleaved with
ordinary text, and every way of splitting it into fragments (including
mid-delimiter splits), feeding the fragments one-by-one through a fresh
filter, concatenating the outputs and appending the flush yields
exactly the whole-string result. -/
theorem C1_chunk_invariance (segs : List Seg) (frags : List (List Char))
    (h : frags.flatten = renderSegs segs) :
    chunkedRun frags = filterRun (renderSegs segs) := by
  unfold chunkedRun filterRun
  rw [processChunks_eq_join, h]

/-- Witness for C1: the fragments split `<think>` as `<thi` + `nk>` and
`</think>` as `</` + `think>`. -/
theorem C1_chunk_invariance_witness :
    chunkedRun [['a', '<', 't', 'h', 'i'], ['n', 'k', '>', 'b', '<', '/'],
        ['t', 'h', 'i', 'n', 'k', '>', 'c']] =
      filterRun (renderSegs [Seg.plain ['a'], Seg.think ['b'], Seg.plain ['c']]) :=
  C1_chunk_invariance
    [Seg.plain ['a'], Seg.think ['b'], Seg.plain ['c']]
    [['a', '<', 't', 'h', 'i'], ['n', 'k', '>', 'b', '<', '/'],
      ['t', 'h', 'i', 'n', 'k', '>', 'c']]
    (by decide)

/-! ## C2 and C3: the unconditional buffering of every `<` -/

/-- C2: the claimed bounded-buffer invariant fails.  After processing a
single fragment of nine `<` characters, `tag_buffer` holds all nine of
them: it is not a prefix (in particular not a strict prefix) of either
delimiter, and its length 9 exceeds 8, the length of the longer
delimiter.  Cause: app.py lines 134-137 append a `<` to `tag_buffer`
unconditionally, even when the buffer can no longer extend to a
delimiter. -/
theorem C2_tag_buffer_unbounded :
    (process_text initState (List.replicate 9 '<')).1.tag_buffer
        = List.replicate 9 '<'
      ∧ (List.replicate 9 '<').isPrefixOf OPEN = false
      ∧ (List.replicate 9 '<').isPrefixOf CLOSE = false
      ∧ 8 < (List.replicate 9 '<').length := by
  decide

/-! ## strip_think_tags (app.py lines 103-111)

`THINK_PATTERN.sub("", text)` scans left to right: a match starts at
each occurrence of `<think>` and, because the body is lazy, extends to
the first following `</think>`; scanning resumes after the match.
`removeSpans` implements exactly that.  Then `re.sub(r"\n{3,}", "\n\n")`
collapses every maximal run of three or more newlines to two, and
`.strip()` removes leading and trailing whitespace. -/

/-- Index of the first occurrence of `pat` as a contiguous sublist of
`s`, if any. -/
def findSub (pat : List Char) : List Char → Option Nat
  | [] => if pat = [] then some 0 else none
  | c :: rest =>
    if pat.isPrefixOf (c :: rest) then some 0
    else (findSub pat rest).map (· + 1)

/-- Fuel-indexed span removal: find the first `<think>`; if a
`</think>` follows it, delete from the opener through that closer and
continue scanning after the deleted region; otherwise nothing matches.
The fuel only bounds the recursion; `s.length` is always enough because
every removed region is non-empty. -/
def removeSpansFuel : Nat → List Char → List Char
  | 0, s => s
  | fuel + 1, s =>
    match findSub OPEN s with
    | none => s
    | some i =>
      let after := s.drop (i + OPEN.length)
      match findSub CLOSE after with
      | none => s
      | some j =>
        s.take i ++ removeSpansFuel fuel (after.drop (j + CLOSE.length))

/-- `THINK_PATTERN.sub("", s)`: remove all lazily-matched
`<think>`…`</think>` spans, left to right. -/
def removeSpans (s : List Char) : List Char := removeSpansFuel s.length s

/-- Length of the maximal run of newlines at the head of the list. -/
def takeNewlines : List Char → Nat
  | [] => 0
  | c :: rest => if c = '\n' then takeNewlines rest + 1 else 0

/-- Fuel-indexed newline collapsing: a maximal run of `k ≥ 3` newlines
becomes exactly two; shorter runs and other characters are kept. -/
def collapseFuel : Nat → List Char → List Char
  | 0, s => s
  | fuel + 1, s =>
    match s with
    | [] => []
    | c :: rest =>
      if c = '\n' then
        let k := takeNewlines (c :: rest)
        (if 3 ≤ k then ['\n', '\n'] else List.replicate k '\n')
          ++ collapseFuel fuel ((c :: rest).drop k)
      else
        c :: collapseFuel fuel rest

/-- `re.sub(r"\n{3,}", "\n\n", s)`. -/
def collapseNewlines (s : List Char) : List Char := collapseFuel s.length s

/-- The characters Python's `str.strip()` removes (the whitespace
code points up to Latin-1; the claims only exercise ASCII). -/
def isPySpace (c : Char) : Bool :=
  c = ' ' ∨ c = '\t' ∨ c = '\n' ∨ c = '\r' ∨ c = '\x0b' ∨ c = '\x0c'
    ∨ c = '\x1c' ∨ c = '\x1d' ∨ c = '\x1e' ∨ c = '\x1f' ∨ c = '\x85' ∨ c = '\xa0'

/-- Python `s.strip()`: drop leading and trailing whitespace. -/
def stripChars (s : List Char) : List Char :=
  ((s.dropWhile isPySpace).reverse.dropWhile isPySpace).reverse

/-- `strip_think_tags` (app.py lines 106-111). -/
def strip_think_tags (s : List Char) : List Char :=
  stripChars (collapseNewlines (removeSpans s))

/-- Whether `s` still contains a removable span: an occurrence of
`<think>` with an occurrence of `</think>` after it. -/
def hasThinkSpan (s : List Char) : Bool :=
  match findSub OPEN s with
  | none => false
  | some i => (findSub CLOSE (s.drop (i + OPEN.length))).isSome

/-- C3: marked-region content leaks.  On the single fragment
`x<<think>secret</think>y` the streaming filter emits the entire input,
including `secret`, which lies between a `<think>` and its matching
`</think>`; the repository's own whole-text filter removes exactly that
span, leaving `x<y`.  The extra `<` before the opener is absorbed into
the pending candidate (app.py line 134), so the opener is never
recognised. -/
theorem C3_marked_region_leak :
    (process_text initState (("x<<think>secret</think>y").toList)).2
        = ("x<<think>secret</think>y").toList
      ∧ (process_text initState (("x<<think>secret</think>y").toList)).1
        = initState
      ∧ removeSpans (("x<<think>secret</think>y").toList) = ("x<y").toList := by
  decide

/-! ## C6: concrete scenario A -/

/-- C6 counterexample: the claim that the whole-text filter maps
`Hello <think>secret</think> world` to `Hello world` is false — the
two spaces around the removed span are both kept, and `.strip()` only
trims the ends of the string. -/
theorem C6_counterexample :
    strip_think_tags (("Hello <think>secret</think> world").toList)
      ≠ ("Hello world").toList := by
  decide

/-- C6 (amended): the whole-text filter maps
`Hello <think>secret</think> world` to `Hello  world`, with the double
interior space preserved. -/
theorem C6_scenario_a :
    strip_think_tags (("Hello <think>secret</think> world").toList)
      = ("Hello  world").toList := by
  decide

/-! ## Properties of findSub -/

theorem isPrefixOf_exists : ∀ (a b : List Char), a.isPrefixOf b = true → ∃ t, a ++ t = b
  | [], b, _ => ⟨b, rfl⟩
  | a :: as, [], h => by simp [List.isPrefixOf] at h
  | a :: as, c :: cs, h => by
    simp only [List.isPrefixOf, Bool.and_eq_true, beq_iff_eq] at h
    obtain ⟨rfl, h2⟩ := h
    obtain ⟨t, ht⟩ := isPrefixOf_exists as cs h2
    exact ⟨t, by rw [List.cons_append, ht]⟩

theorem findSub_eq_none (pat u : List Char) (h : findSub pat u = none) :
    ∀ k, pat.isPrefixOf (u.drop k) = false := by
  induction u with
  | nil =>
    intro k
    cases pat with
    | nil => simp [findSub] at h
    | cons a as => simp [List.isPrefixOf]
  | cons c rest ih =>
    intro k
    simp only [findSub] at h
    cases hp : pat.isPrefixOf (c :: rest) with
    | true => rw [hp] at h; simp at h
    | false =>
      rw [hp] at h
      simp only [Bool.false_eq_true, if_false] at h
      have h' : findSub pat rest = none := by
        cases hf : findSub pat rest with
        | none => rfl
        | some v => rw [hf] at h; simp at h
      cases k with
      | zero => simpa using hp
      | succ k => simpa [List.drop_succ_cons] using ih h' k

theorem findSub_eq_some (pat u : List Char) (i : Nat)
    (h : findSub pat u = some i) : pat.isPrefixOf (u.drop i) = true := by
  induction u generalizing i with
  | nil =>
    by_cases hp : pat = []
    · subst hp
      simp [List.isPrefixOf]
    · simp [findSub, hp] at h
  | cons c rest ih =>
    simp only [findSub] at h
    cases hp : pat.isPrefixOf (c :: rest) with
    | true =>
      rw [hp] at h
      simp only [if_true] at h
      cases h
      simpa using hp
    | false =>
      rw [hp] at h
      simp only [Bool.false_eq_true, if_false, Option.map_eq_some'] at h
      obtain ⟨i', hi', rfl⟩ := h
      simpa [List.drop_succ_cons] using ih i' hi'

/-! ## C10: an unclosed `<think>` region survives removeSpans -/

theorem removeSpansFuel_keeps_tail (fuel : Nat) :
    ∀ (s : List Char) (p : Nat),
      s.length ≤ fuel →
      OPEN.isPrefixOf (s.drop p) = true →
      (∀ q, p ≤ q → CLOSE.isPrefixOf (s.drop q) = false) →
      ∃ t, removeSpansFuel fuel s = t ++ s.drop p := by
  induction fuel with
  | zero =>
    intro s p _ _ _
    exact ⟨s.take p, (List.take_append_drop p s).symm⟩
  | succ fuel ih =>
    intro s p hl hopen hclose
    simp only [removeSpansFuel]
    split
    · exact ⟨s.take p, (List.take_append_drop p s).symm⟩
    rename_i i h1
    split
    · exact ⟨s.take p, (List.take_append_drop p s).symm⟩
    rename_i j h2
    have hb : CLOSE.isPrefixOf (s.drop (i + OPEN.length + j)) = true := by
      have hj := findSub_eq_some CLOSE _ j h2
      rwa [List.drop_drop] at hj
    have hblt : i + OPEN.length + j < p := by
      by_contra hge
      push_neg at hge
      rw [hclose (i + OPEN.length + j) hge] at hb
      exact absurd hb (by simp)
    have hb8 : i + OPEN.length + j + CLOSE.length ≤ p := by
      by_contra hlt
      push_neg at hlt
      obtain ⟨w1, hw1⟩ := isPrefixOf_exists CLOSE _ hb
      obtain ⟨w2, hw2⟩ := isPrefixOf_exists OPEN _ hopen
      have hcl8 : CLOSE.length = 8 := by decide
      have hk1 : 1 ≤ p - (i + OPEN.length + j) := by omega
      have hk2 : p - (i + OPEN.length + j) < 8 := by omega
      have hsp : s.drop p
          = (s.drop (i + OPEN.length + j)).drop (p - (i + OPEN.length + j)) := by
        rw [List.drop_drop]
        congr 1
        omega
      rw [← hw2, ← hw1] at hsp
      rw [List.drop_append_eq_append_drop] at hsp
      have hz : p - (i + OPEN.length + j) - CLOSE.length = 0 := by omega
      rw [hz, List.drop_zero] at hsp
      have hnn : (CLOSE.drop (p - (i + OPEN.length + j))).head?
          = CLOSE[p - (i + OPEN.length + j)]? := List.head?_drop _ _
      have hlt8 : p - (i + OPEN.length + j) < CLOSE.length := by omega
      have hget : ∀ k, k < 8 → 1 ≤ k → CLOSE[k]? ≠ some '<' := by decide
      obtain ⟨c0, hc0⟩ : ∃ c, CLOSE[p - (i + OPEN.length + j)]? = some c :=
        ⟨_, List.getElem?_eq_getElem hlt8⟩
      obtain ⟨dl, hdl⟩ : ∃ dl,
          CLOSE.drop (p - (i + OPEN.length + j)) = c0 :: dl := by
        cases hdc : CLOSE.drop (p - (i + OPEN.length + j)) with
        | nil =>
          rw [hdc] at hnn
          rw [hc0] at hnn
          simp at hnn
        | cons x xs =>
          rw [hdc] at hnn
          rw [hc0] at hnn
          simp only [List.head?_cons, Option.some.injEq] at hnn
          exact ⟨xs, by rw [hnn]⟩
      rw [hdl] at hsp
      have hc0eq : c0 = '<' := by
        simp only [OPEN, List.cons_append] at hsp
        injection hsp with hch _
        exact hch.symm
      exact hget _ hk2 hk1 (by rw [hc0, hc0eq])
    have harith : (s.drop (i + OPEN.length)).drop (j + CLOSE.length)
        = s.drop (i + OPEN.length + j + CLOSE.length) := by
      rw [List.drop_drop]
      congr 1
    rw [harith]
    have hlen : (s.drop (i + OPEN.length + j + CLOSE.length)).length ≤ fuel := by
      rw [List.length_drop]
      have hcl8 : CLOSE.length = 8 := by decide
      omega
    have hopen' : OPEN.isPrefixOf
        ((s.drop (i + OPEN.length + j + CLOSE.length)).drop
          (p - (i + OPEN.length + j + CLOSE.length))) = true := by
      rw [List.drop_drop]
      have he : i + OPEN.length + j + CLOSE.length
          + (p - (i + OPEN.length + j + CLOSE.length)) = p := by omega
      rwa [he]
    have hclose' : ∀ q, p - (i + OPEN.length + j + CLOSE.length) ≤ q →
        CLOSE.isPrefixOf
          ((s.drop (i + OPEN.length + j + CLOSE.length)).drop q) = false := by
      intro q hq
      rw [List.drop_drop]
      exact hclose (i + OPEN.length + j + CLOSE.length + q) (by omega)
    obtain ⟨t', ht'⟩ := ih (s.drop (i + OPEN.length + j + CLOSE.length))
      (p - (i + OPEN.length + j + CLOSE.length)) hlen hopen' hclose'
    refine ⟨s.take i ++ t', ?_⟩
    rw [ht', List.drop_drop]
    have he : i + OPEN.length + j + CLOSE.length
        + (p - (i + OPEN.length + j + CLOSE.length)) = p := by omega
    rw [he, List.append_assoc]

/-- C10: if `s` contains an occurrence of `<think>` (at position `p`)
with no subsequent `</think>`, the whole-text filter removes nothing
from that opener onward: span removal yields some prefix followed by
the untouched tail `s.drop p`, and `strip_think_tags` then applies only
newline collapsing and end trimming to that string.  (This is the
opposite of the streaming filter, which discards unclosed region
content at end of stream.) -/
theorem C10_unclosed_region_kept (s : List Char) (p : Nat)
    (hopen : OPEN.isPrefixOf (s.drop p) = true)
    (hclose : findSub CLOSE (s.drop p) = none) :
    ∃ t, removeSpans s = t ++ s.drop p
      ∧ strip_think_tags s = stripChars (collapseNewlines (t ++ s.drop p)) := by
  have hc : ∀ q, p ≤ q → CLOSE.isPrefixOf (s.drop q) = false := by
    intro q hq
    have h := findSub_eq_none CLOSE _ hclose (q - p)
    rw [List.drop_drop] at h
    have he : p + (q - p) = q := by omega
    rwa [he] at h
  obtain ⟨t, ht⟩ := removeSpansFuel_keeps_tail s.length s p le_rfl hopen hc
  refine ⟨t, ht, ?_⟩
  unfold strip_think_tags
  rw [show removeSpans s = t ++ s.drop p from ht]

/-- Witness for C10 at `a<think>b`, opener at position 1. -/
theorem C10_unclosed_region_kept_witness :
    ∃ t, removeSpans (("a<think>b").toList)
          = t ++ (("a<think>b").toList).drop 1
      ∧ strip_think_tags (("a<think>b").toList)
        = stripChars (collapseNewlines (t ++ (("a<think>b").toList).drop 1)) :=
  C10_unclosed_region_kept (("a<think>b").toList) 1 (by decide) (by decide)

/-! ## Idempotence of the streaming filter

The reachable buffers of the state machine are a (strict) delimiter
prefix followed by a run of `<` characters, and everything the machine
ever emits decomposes into single non-`<` characters and failed
candidates of that shape.  Refeeding such a decomposition reproduces it
verbatim, which gives idempotence of `filterRun`. -/

/-- Shape of every reachable tag buffer: a strict prefix of the active
delimiter followed by a run of `<` characters. -/
def goodBuf (pat b : List Char) : Prop :=
  ∃ q m, q.isPrefixOf pat = true ∧ q ≠ pat ∧ b = q ++ List.replicate m '<'

/-- State invariant of the filter. -/
def stInv (st : FilterState) : Prop :=
  goodBuf (if st.inside_think then CLOSE else OPEN) st.tag_buffer

/-- Shape of a failed-candidate emission while outside a think block. -/
def unitB (w : List Char) : Prop :=
  ∃ q m c, q.isPrefixOf OPEN = true ∧ q ≠ OPEN ∧ c ≠ '<'
    ∧ q ++ List.replicate m '<' ≠ []
    ∧ w = q ++ List.replicate m '<' ++ [c]
    ∧ w.isPrefixOf OPEN = false

/-- Decomposition of a complete filter output into emission units. -/
inductive units : List Char → Prop where
  | nil : units []
  | single (c : Char) (rest : List Char) : c ≠ '<' → units rest → units (c :: rest)
  | unit (w rest : List Char) : unitB w → units rest → units (w ++ rest)

theorem goodBuf_nil (pat : List Char) (h : pat ≠ []) : goodBuf pat [] :=
  ⟨[], 0, by cases pat <;> rfl, fun he => h he.symm, rfl⟩

theorem goodBuf_snoc (pat b : List Char) (h : goodBuf pat b) :
    goodBuf pat (b ++ ['<']) := by
  obtain ⟨q, m, hq1, hq2, rfl⟩ := h
  exact ⟨q, m + 1, hq1, hq2, by rw [List.replicate_succ', ← List.append_assoc]⟩

theorem step_inv (st : FilterState) (c : Char) (h : stInv st) :
    stInv (step st c).1
      ∧ ((step st c).2 = []
          ∨ (∃ c', c' ≠ '<' ∧ (step st c).2 = [c'])
          ∨ unitB (step st c).2) := by
  obtain ⟨inside, buf⟩ := st
  cases inside with
  | false =>
    simp only [stInv, Bool.false_eq_true, if_false] at h
    by_cases hc : c = '<'
    · subst hc
      have hs : step ⟨false, buf⟩ '<' = (⟨false, buf ++ ['<']⟩, []) := by
        simp [step]
      rw [hs]
      exact ⟨by simpa [stInv] using goodBuf_snoc OPEN buf h, Or.inl rfl⟩
    · by_cases hbuf : buf = []
      · subst hbuf
        have hs : step ⟨false, []⟩ c = (⟨false, []⟩, [c]) := by
          simp [step, hc]
        rw [hs]
        exact ⟨by simpa [stInv] using h, Or.inr (Or.inl ⟨c, hc, rfl⟩)⟩
      · by_cases hOPEN : buf ++ [c] = OPEN
        · have hs : step ⟨false, buf⟩ c = (⟨true, []⟩, []) := by
            simp [step, hc, hbuf, hOPEN]
          rw [hs]
          exact ⟨by simpa [stInv] using goodBuf_nil CLOSE (by decide), Or.inl rfl⟩
        · by_cases hpfx : (buf ++ [c]).isPrefixOf OPEN = true
          · have hs : step ⟨false, buf⟩ c = (⟨false, buf ++ [c]⟩, []) := by
              simp [step, hc, hbuf, hOPEN, hpfx]
            rw [hs]
            refine ⟨?_, Or.inl rfl⟩
            simp only [stInv, Bool.false_eq_true, if_false]
            exact ⟨buf ++ [c], 0, hpfx, hOPEN, by simp⟩
          · have hpfx' : (buf ++ [c]).isPrefixOf OPEN = false :=
              Bool.eq_false_iff.mpr hpfx
            have hs : step ⟨false, buf⟩ c = (⟨false, []⟩, buf ++ [c]) := by
              simp [step, hc, hbuf, hOPEN, hpfx']
            rw [hs]
            refine ⟨by simpa [stInv] using goodBuf_nil OPEN (by decide),
              Or.inr (Or.inr ?_)⟩
            obtain ⟨q, m, hq1, hq2, hb⟩ := h
            exact ⟨q, m, c, hq1, hq2, hc, by rw [← hb]; exact hbuf,
              by rw [hb], hpfx'⟩
  | true =>
    simp only [stInv, if_true] at h
    by_cases hc : c = '<'
    · subst hc
      have hs : step ⟨true, buf⟩ '<' = (⟨true, buf ++ ['<']⟩, []) := by
        simp [step]
      rw [hs]
      exact ⟨by simpa [stInv] using goodBuf_snoc CLOSE buf h, Or.inl rfl⟩
    · by_cases hbuf : buf = []
      · subst hbuf
        have hs : step ⟨true, []⟩ c = (⟨true, []⟩, []) := by
          simp [step, hc]
        rw [hs]
        exact ⟨by simpa [stInv] using h, Or.inl rfl⟩
      · by_cases hCLOSE : buf ++ [c] = CLOSE
        · have hs : step ⟨true, buf⟩ c = (⟨false, []⟩, []) := by
            simp [step, hc, hbuf, hCLOSE]
          rw [hs]
          exact ⟨by simpa [stInv] using goodBuf_nil OPEN (by decide), Or.inl rfl⟩
        · by_cases hpfx : (buf ++ [c]).isPrefixOf CLOSE = true
          · have hs : step ⟨true, buf⟩ c = (⟨true, buf ++ [c]⟩, []) := by
              simp [step, hc, hbuf, hCLOSE, hpfx]
            rw [hs]
            refine ⟨?_, Or.inl rfl⟩
            simp only [stInv, if_true]
            exact ⟨buf ++ [c], 0, hpfx, hCLOSE, by simp⟩
          · have hpfx' : (buf ++ [c]).isPrefixOf CLOSE = false :=
              Bool.eq_false_iff.mpr hpfx
            have hs : step ⟨true, buf⟩ c = (⟨true, []⟩, []) := by
              simp [step, hc, hbuf, hCLOSE, hpfx']
            rw [hs]
            exact ⟨by simpa [stInv] using goodBuf_nil CLOSE (by decide), Or.inl rfl⟩

theorem process_text_inv (s : List Char) : ∀ st, stInv st →
    stInv (process_text st s).1 ∧ units (process_text st s).2 := by
  induction s with
  | nil => intro st h; exact ⟨h, units.nil⟩
  | cons c rest ih =>
    intro st h
    obtain ⟨h1, h2⟩ := step_inv st c h
    obtain ⟨ih1, ih2⟩ := ih (step st c).1 h1
    refine ⟨ih1, ?_⟩
    simp only [process_text]
    rcases h2 with h2 | ⟨c', hc', h2⟩ | h2
    · rw [h2, List.nil_append]; exact ih2
    · rw [h2]; exact units.single c' _ hc' ih2
    · exact units.unit _ _ h2 ih2

theorem prefixOPEN_enum (q : List Char) (h : q.isPrefixOf OPEN = true) :
    q = [] ∨ q = ['<'] ∨ q = ['<', 't'] ∨ q = ['<', 't', 'h']
      ∨ q = ['<', 't', 'h', 'i'] ∨ q = ['<', 't', 'h', 'i', 'n']
      ∨ q = ['<', 't', 'h', 'i', 'n', 'k'] ∨ q = OPEN := by
  obtain ⟨t, ht⟩ := isPrefixOf_exists q OPEN h
  have hlen : q.length ≤ 7 := by
    have hl := congrArg List.length ht
    simp [OPEN] at hl
    omega
  have htake : q = OPEN.take q.length := by
    rw [← ht, List.take_left]
  generalize hn : q.length = n at hlen htake
  interval_cases n <;> rw [htake] <;> decide

theorem process_text_strict_pfx (q : List Char)
    (h1 : q.isPrefixOf OPEN = true) (h2 : q ≠ OPEN) :
    process_text initState q = (⟨false, q⟩, []) := by
  rcases prefixOPEN_enum q h1 with rfl | rfl | rfl | rfl | rfl | rfl | rfl | rfl
  · decide
  · decide
  · decide
  · decide
  · decide
  · decide
  · decide
  · exact absurd rfl h2

theorem process_text_replicate (m : Nat) :
    ∀ b, process_text ⟨false, b⟩ (List.replicate m '<')
      = (⟨false, b ++ List.replicate m '<'⟩, []) := by
  induction m with
  | zero => intro b; simp [process_text, List.replicate]
  | succ m ih =>
    intro b
    rw [List.replicate_succ]
    simp only [process_text]
    have hs : step ⟨false, b⟩ '<' = (⟨false, b ++ ['<']⟩, []) := by
      simp [step]
    rw [hs]
    simp only []
    rw [ih (b ++ ['<'])]
    simp [List.replicate_succ]

theorem process_text_goodBuf (b : List Char) (h : goodBuf OPEN b) :
    process_text initState b = (⟨false, b⟩, []) := by
  obtain ⟨q, m, hq1, hq2, rfl⟩ := h
  rw [process_text_append, process_text_strict_pfx q hq1 hq2]
  simp only []
  rw [process_text_replicate m q]
  simp

theorem step_fail_outside (buf : List Char) (c : Char) (hc : c ≠ '<')
    (hbuf : buf ≠ []) (hbo : ¬(buf ++ [c] = OPEN))
    (hnp : (buf ++ [c]).isPrefixOf OPEN = false) :
    step ⟨false, buf⟩ c = (⟨false, []⟩, buf ++ [c]) := by
  simp [step, hc, hbuf, hbo, hnp]

theorem process_text_unitB (w : List Char) (h : unitB w) :
    process_text initState w = (initState, w) := by
  obtain ⟨q, m, c, hq1, hq2, hc, hne, rfl, hnp⟩ := h
  rw [process_text_append,
    process_text_goodBuf _ ⟨q, m, hq1, hq2, rfl⟩]
  simp only []
  have hbo : ¬(q ++ List.replicate m '<' ++ [c] = OPEN) := by
    intro he
    rw [he] at hnp
    have ho : OPEN.isPrefixOf OPEN = true := by decide
    rw [ho] at hnp
    exact Bool.noConfusion hnp
  have hs := step_fail_outside (q ++ List.replicate m '<') c hc hne hbo hnp
  simp only [process_text]
  rw [hs]
  simp [initState]

theorem refeed (o : List Char) (ho : units o) :
    ∀ b, goodBuf OPEN b →
      process_text initState (o ++ b) = (⟨false, b⟩, o) := by
  induction ho with
  | nil =>
    intro b hb
    simpa using process_text_goodBuf b hb
  | single c rest hc _ ih =>
    intro b hb
    simp only [List.cons_append, process_text, List.append_eq]
    have hs : step initState c = (initState, [c]) := by
      simp [step, initState, hc]
    rw [hs]
    simp only []
    rw [ih b hb]
    simp
  | unit w rest hw _ ih =>
    intro b hb
    rw [List.append_assoc, process_text_append, process_text_unitB w hw]
    simp only []
    rw [ih b hb]

theorem flush_outside (b : List Char) : flush ⟨false, b⟩ = b := by
  cases b <;> simp [flush]

theorem stInv_init : stInv initState := by
  simpa [stInv, initState] using goodBuf_nil OPEN (by decide)

/-- The output-plus-flush of a whole run is a fixed point of the
filter: refeeding it through a fresh filter reproduces it exactly. -/
theorem filterRun_fix (s : List Char) : filterRun (filterRun s) = filterRun s := by
  obtain ⟨hst, hun⟩ := process_text_inv s initState stInv_init
  cases hins : (process_text initState s).1.inside_think with
  | true =>
    have hfl : flush (process_text initState s).1 = [] := by
      simp [flush, hins]
    have hfs : filterRun s = (process_text initState s).2 := by
      unfold filterRun
      rw [hfl, List.append_nil]
    rw [hfs]
    have h6 := refeed (process_text initState s).2 hun [] (goodBuf_nil OPEN (by decide))
    rw [List.append_nil] at h6
    unfold filterRun
    rw [h6]
    simp [flush]
  | false =>
    have hgb : goodBuf OPEN (process_text initState s).1.tag_buffer := by
      have h' := hst
      unfold stInv at h'
      rw [hins] at h'
      simpa using h'
    have hfl : flush (process_text initState s).1
        = (process_text initState s).1.tag_buffer := by
      by_cases hbe : (process_text initState s).1.tag_buffer = []
      · simp [flush, hbe]
      · simp [flush, hins, hbe]
    have hfs : filterRun s
        = (process_text initState s).2 ++ (process_text initState s).1.tag_buffer := by
      unfold filterRun
      rw [hfl]
    rw [hfs]
    have h6 := refeed (process_text initState s).2 hun
      (process_text initState s).1.tag_buffer hgb
    unfold filterRun
    rw [h6]
    simp only []
    rw [flush_outside]

/-! ## Idempotence of the whole-text filter on span-free results -/

theorem removeSpansFuel_noSpan (t : List Char) (h : hasThinkSpan t = false) :
    ∀ f, removeSpansFuel f t = t := by
  intro f
  cases f with
  | zero => rfl
  | succ f =>
    simp only [removeSpansFuel]
    split
    · rfl
    rename_i i h1
    split
    · rfl
    rename_i j h2
    exfalso
    unfold hasThinkSpan at h
    rw [h1] at h
    simp only [h2, Option.isSome_some] at h
    exact Bool.noConfusion h

theorem removeSpans_noSpan (t : List Char) (h : hasThinkSpan t = false) :
    removeSpans t = t := removeSpansFuel_noSpan t h t.length

/-- A run of three consecutive newlines somewhere in the string. -/
def hasRun3 (t : List Char) : Prop :=
  ∃ a b, t = a ++ ['\n', '\n', '\n'] ++ b

theorem hasRun3_cons (c : Char) (u : List Char) (h : hasRun3 u) :
    hasRun3 (c :: u) := by
  obtain ⟨a, b, rfl⟩ := h
  exact ⟨c :: a, b, rfl⟩

theorem hasRun3_append_left (x u : List Char) (h : hasRun3 u) :
    hasRun3 (x ++ u) := by
  obtain ⟨a, b, rfl⟩ := h
  exact ⟨x ++ a, b, by simp [List.append_assoc]⟩

theorem hasRun3_middle (x m y : List Char) (h : hasRun3 m) :
    hasRun3 (x ++ m ++ y) := by
  obtain ⟨a, b, rfl⟩ := h
  exact ⟨x ++ a, b ++ y, by simp [List.append_assoc]⟩

theorem noRun3_cons_of (c : Char) (u : List Char) (hc : c ≠ '\n')
    (hu : ¬hasRun3 u) : ¬hasRun3 (c :: u) := by
  rintro ⟨a, b, he⟩
  cases a with
  | nil =>
    simp only [List.nil_append, List.cons_append] at he
    exact hc (List.head_eq_of_cons_eq he)
  | cons a0 a' =>
    simp only [List.cons_append] at he
    exact hu ⟨a', b, List.tail_eq_of_cons_eq he⟩

theorem takeNewlines_spec (t : List Char) :
    t = List.replicate (takeNewlines t) '\n' ++ t.drop (takeNewlines t) := by
  induction t with
  | nil => rfl
  | cons c rest ih =>
    by_cases hc : c = '\n'
    · subst hc
      simp only [takeNewlines, if_pos]
      rw [List.replicate_succ]
      simp only [List.cons_append, List.drop_succ_cons]
      exact congrArg _ ih
    · simp [takeNewlines, hc]

theorem takeNewlines_ge3_run (t : List Char) (h : 3 ≤ takeNewlines t) :
    hasRun3 t := by
  refine ⟨[], List.replicate (takeNewlines t - 3) '\n' ++ t.drop (takeNewlines t), ?_⟩
  have hsplit : List.replicate (takeNewlines t) '\n'
      = List.replicate 3 '\n' ++ List.replicate (takeNewlines t - 3) '\n' := by
    rw [← List.replicate_add]
    congr 1
    omega
  calc t = List.replicate (takeNewlines t) '\n' ++ t.drop (takeNewlines t) :=
        takeNewlines_spec t
    _ = List.replicate 3 '\n'
        ++ (List.replicate (takeNewlines t - 3) '\n' ++ t.drop (takeNewlines t)) := by
        rw [hsplit, List.append_assoc]
    _ = [] ++ ['\n', '\n', '\n']
        ++ (List.replicate (takeNewlines t - 3) '\n' ++ t.drop (takeNewlines t)) := by
        simp [List.replicate]

theorem takeNewlines_drop_head (t : List Char) :
    (t.drop (takeNewlines t)).head? ≠ some '\n' := by
  induction t with
  | nil => simp
  | cons c rest ih =>
    by_cases hc : c = '\n'
    · subst hc
      simpa [takeNewlines, List.drop_succ_cons] using ih
    · simp only [takeNewlines, hc, if_false, List.drop_zero, List.head?_cons]
      intro he
      exact hc (Option.some.inj he)

theorem collapseFuel_head (f : Nat) (v : List Char)
    (h : v.head? ≠ some '\n') : (collapseFuel f v).head? ≠ some '\n' := by
  cases f with
  | zero => exact h
  | succ f =>
    cases v with
    | nil => simp [collapseFuel]
    | cons c rest =>
      have hc : c ≠ '\n' := by
        intro he
        exact h (by rw [he]; rfl)
      simp [collapseFuel, hc]

theorem noRun3_concat (j : Nat) (u : List Char) (hj : j ≤ 2)
    (hu : ¬hasRun3 u) (hh : u.head? ≠ some '\n') :
    ¬hasRun3 (List.replicate j '\n' ++ u) := by
  interval_cases j
  · simpa using hu
  · rintro ⟨a, b, he⟩
    simp only [List.replicate, List.cons_append, List.nil_append] at he
    cases a with
    | nil =>
      simp only [List.nil_append, List.cons_append] at he
      have := List.tail_eq_of_cons_eq he
      exact hh (by rw [this]; rfl)
    | cons a0 a' =>
      simp only [List.cons_append] at he
      exact hu ⟨a', b, List.tail_eq_of_cons_eq he⟩
  · rintro ⟨a, b, he⟩
    simp only [List.replicate, List.cons_append, List.nil_append] at he
    cases a with
    | nil =>
      simp only [List.nil_append, List.cons_append] at he
      have h2 := List.tail_eq_of_cons_eq he
      have h3 := List.tail_eq_of_cons_eq h2
      exact hh (by rw [h3]; rfl)
    | cons a0 a' =>
      simp only [List.cons_append] at he
      have h2 := List.tail_eq_of_cons_eq he
      cases a' with
      | nil =>
        simp only [List.nil_append, List.cons_append] at h2
        have h3 := List.tail_eq_of_cons_eq h2
        exact hh (by rw [h3]; rfl)
      | cons a1 a'' =>
        simp only [List.cons_append] at h2
        exact hu ⟨a'', b, List.tail_eq_of_cons_eq h2⟩

theorem takeNewlines_pos (rest : List Char) :
    1 ≤ takeNewlines ('\n' :: rest) := by
  simp [takeNewlines]

theorem collapseFuel_noRun3 (f : Nat) :
    ∀ t : List Char, t.length ≤ f → ¬hasRun3 (collapseFuel f t) := by
  induction f with
  | zero =>
    intro t ht
    have ht0 : t = [] := List.length_eq_zero.mp (by omega)
    subst ht0
    rintro ⟨a, b, he⟩
    simp only [collapseFuel] at he
    have hlen := congrArg List.length he
    simp at hlen
    omega
  | succ f ih =>
    intro t ht
    cases t with
    | nil =>
      rintro ⟨a, b, he⟩
      simp only [collapseFuel] at he
      have hlen := congrArg List.length he
      simp at hlen
      omega
    | cons c rest =>
      by_cases hc : c = '\n'
      · subst hc
        have hk1 : 1 ≤ takeNewlines ('\n' :: rest) := takeNewlines_pos rest
        have hlen : (('\n' :: rest).drop (takeNewlines ('\n' :: rest))).length ≤ f := by
          rw [List.length_drop]
          simp only [List.length_cons] at ht ⊢
          omega
        have hu := ih _ hlen
        have hh := collapseFuel_head f _ (takeNewlines_drop_head ('\n' :: rest))
        simp only [collapseFuel, if_pos]
        by_cases h3 : 3 ≤ takeNewlines ('\n' :: rest)
        · rw [if_pos h3]
          exact noRun3_concat 2 _ (by omega) hu hh
        · rw [if_neg h3]
          exact noRun3_concat (takeNewlines ('\n' :: rest)) _ (by omega) hu hh
      · have hlen : rest.length ≤ f := by
          simp only [List.length_cons] at ht
          omega
        simp only [collapseFuel, hc, if_false]
        exact noRun3_cons_of c _ hc (ih rest hlen)

theorem collapseFuel_id (f : Nat) :
    ∀ t : List Char, t.length ≤ f → ¬hasRun3 t → collapseFuel f t = t := by
  induction f with
  | zero => intro t _ _; rfl
  | succ f ih =>
    intro t ht hr
    cases t with
    | nil => rfl
    | cons c rest =>
      by_cases hc : c = '\n'
      · subst hc
        have hk3 : ¬(3 ≤ takeNewlines ('\n' :: rest)) := by
          intro h3
          exact hr (takeNewlines_ge3_run _ h3)
        have hdr : ¬hasRun3 (('\n' :: rest).drop (takeNewlines ('\n' :: rest))) := by
          intro hdd
          exact hr (by
            have hspec := takeNewlines_spec ('\n' :: rest)
            rw [hspec]
            exact hasRun3_append_left _ _ hdd)
        have hlen : (('\n' :: rest).drop (takeNewlines ('\n' :: rest))).length ≤ f := by
          rw [List.length_drop]
          have := takeNewlines_pos rest
          simp only [List.length_cons] at ht ⊢
          omega
        simp only [collapseFuel, if_pos, if_neg hk3]
        rw [ih _ hlen hdr]
        exact (takeNewlines_spec ('\n' :: rest)).symm
      · have hlen : rest.length ≤ f := by
          simp only [List.length_cons] at ht
          omega
        have hrr : ¬hasRun3 rest := fun h => hr (hasRun3_cons c rest h)
        simp only [collapseFuel, hc, if_false]
        rw [ih rest hlen hrr]

theorem collapseNewlines_id (t : List Char) (h : ¬hasRun3 t) :
    collapseNewlines t = t := collapseFuel_id t.length t le_rfl h

theorem collapseNewlines_noRun3 (t : List Char) :
    ¬hasRun3 (collapseNewlines t) := collapseFuel_noRun3 t.length t le_rfl

/-! ## stripChars is idempotent and returns a middle part -/

theorem dropWhile_parts (p : Char → Bool) :
    ∀ l : List Char, ∃ x, l = x ++ l.dropWhile p := by
  intro l
  induction l with
  | nil => exact ⟨[], rfl⟩
  | cons c rest ih =>
    by_cases hc : p c = true
    · obtain ⟨x, hx⟩ := ih
      refine ⟨c :: x, ?_⟩
      rw [List.dropWhile_cons_of_pos hc]
      simpa using hx
    · refine ⟨[], ?_⟩
      rw [List.dropWhile_cons_of_neg hc]
      rfl

theorem stripChars_parts (u : List Char) :
    ∃ x y, u = x ++ stripChars u ++ y := by
  obtain ⟨x, hx⟩ := dropWhile_parts isPySpace u
  obtain ⟨x2, hx2⟩ := dropWhile_parts isPySpace (u.dropWhile isPySpace).reverse
  refine ⟨x, x2.reverse, ?_⟩
  unfold stripChars
  have hv : u.dropWhile isPySpace
      = ((u.dropWhile isPySpace).reverse.dropWhile isPySpace).reverse
        ++ x2.reverse := by
    have := congrArg List.reverse hx2
    simpa [List.reverse_append] using this
  rw [List.append_assoc, ← hv, ← hx]

theorem noRun3_middle (x m y : List Char) (h : ¬hasRun3 (x ++ m ++ y)) :
    ¬hasRun3 m := fun hm => h (hasRun3_middle x m y hm)

theorem dropWhile_head_false (p : Char → Bool) (l : List Char) :
    l.dropWhile p = []
      ∨ ∃ c r, l.dropWhile p = c :: r ∧ p c = false := by
  induction l with
  | nil => exact Or.inl rfl
  | cons c rest ih =>
    by_cases hc : p c = true
    · rw [List.dropWhile_cons_of_pos hc]
      exact ih
    · rw [List.dropWhile_cons_of_neg hc]
      exact Or.inr ⟨c, rest, rfl, Bool.eq_false_iff.mpr hc⟩

theorem dropWhile_id_of_head (p : Char → Bool) (l : List Char)
    (h : l = [] ∨ ∃ c r, l = c :: r ∧ p c = false) :
    l.dropWhile p = l := by
  rcases h with rfl | ⟨c, r, rfl, hc⟩
  · rfl
  · rw [List.dropWhile_cons_of_neg (by rw [hc]; exact Bool.noConfusion)]

theorem stripChars_idem (s : List Char) :
    stripChars (stripChars s) = stripChars s := by
  have hA : (stripChars s).dropWhile isPySpace = stripChars s := by
    apply dropWhile_id_of_head
    rcases dropWhile_head_false isPySpace s with hv | ⟨c, r, hv, hc⟩
    · left
      unfold stripChars
      rw [hv]
      rfl
    · -- stripChars s is a prefix of s.dropWhile isPySpace = c :: r
      obtain ⟨x2, hx2⟩ := dropWhile_parts isPySpace (s.dropWhile isPySpace).reverse
      have hpre : s.dropWhile isPySpace = stripChars s ++ x2.reverse := by
        have := congrArg List.reverse hx2
        unfold stripChars
        simpa [List.reverse_append] using this
      cases hsc : stripChars s with
      | nil => exact Or.inl rfl
      | cons c0 r0 =>
        right
        refine ⟨c0, r0, rfl, ?_⟩
        rw [hsc] at hpre
        rw [hv] at hpre
        simp only [List.cons_append] at hpre
        have hcc : c = c0 := List.head_eq_of_cons_eq hpre
        exact hcc ▸ hc
  have hB : (stripChars s).reverse.dropWhile isPySpace = (stripChars s).reverse := by
    apply dropWhile_id_of_head
    unfold stripChars
    rw [List.reverse_reverse]
    exact dropWhile_head_false isPySpace (s.dropWhile isPySpace).reverse
  rw [show stripChars (stripChars s)
      = (((stripChars s).dropWhile isPySpace).reverse.dropWhile isPySpace).reverse
    from rfl]
  rw [hA, hB, List.reverse_reverse]

/-! ## C5: idempotence -/

/-- C5 counterexample: `strip_think_tags` is not idempotent.  On
`<thi<think>X</think>nk>abc</think>` the first pass removes the inner
span, and the glued-together remainder `<think>abc</think>` is a fresh
span that a second pass removes entirely. -/
theorem C5_counterexample :
    strip_think_tags (strip_think_tags
        (("<thi<think>X</think>nk>abc</think>").toList))
      ≠ strip_think_tags (("<thi<think>X</think>nk>abc</think>").toList) := by
  decide

/-- C5 (amended): filtering already-filtered text is a no-op in the
following sense — `strip_think_tags` is idempotent on every input whose
filtered output contains no residual `<think>`…`</think>` span (span
removal re-created a span in the counterexample), and the streaming
filter is unconditionally idempotent: processing a fresh filter's
output-plus-flush through a second fresh filter emits it unchanged. -/
theorem C5_idempotence_amended :
    (∀ s : List Char, hasThinkSpan (strip_think_tags s) = false →
        strip_think_tags (strip_think_tags s) = strip_think_tags s)
    ∧ (∀ s : List Char, filterRun (filterRun s) = filterRun s) := by
  constructor
  · intro s h
    have hu : ¬hasRun3 (collapseNewlines (removeSpans s)) :=
      collapseNewlines_noRun3 _
    obtain ⟨x, y, hxy⟩ := stripChars_parts (collapseNewlines (removeSpans s))
    have hmid : ¬hasRun3
        (x ++ stripChars (collapseNewlines (removeSpans s)) ++ y) := by
      rw [← hxy]
      exact hu
    have ht : ¬hasRun3 (stripChars (collapseNewlines (removeSpans s))) :=
      noRun3_middle _ _ _ hmid
    have ht' : ¬hasRun3 (strip_think_tags s) := ht
    calc strip_think_tags (strip_think_tags s)
        = stripChars (collapseNewlines (removeSpans (strip_think_tags s))) := rfl
      _ = stripChars (collapseNewlines (strip_think_tags s)) := by
          rw [removeSpans_noSpan _ h]
      _ = stripChars (strip_think_tags s) := by
          rw [collapseNewlines_id _ ht']
      _ = stripChars (stripChars (collapseNewlines (removeSpans s))) := rfl
      _ = stripChars (collapseNewlines (removeSpans s)) := stripChars_idem _
      _ = strip_think_tags s := rfl
  · exact filterRun_fix

/-- Witness for C5 (amended) at `a<think>b</think>c`, whose filtered
output `ac` has no residual span. -/
theorem C5_idempotence_amended_witness :
    strip_think_tags (strip_think_tags (("a<think>b</think>c").toList))
        = strip_think_tags (("a<think>b</think>c").toList)
      ∧ filterRun (filterRun (("a<think>b</think>c").toList))
        = filterRun (("a<think>b</think>c").toList) :=
  ⟨C5_idempotence_amended.1 (("a<think>b</think>c").toList) (by decide),
   C5_idempotence_amended.2 (("a<think>b</think>c").toList)⟩

/-! ## Bearer-token checks (app.py lines 90-97, main.py lines 20-28)

`hdr` is the value of the `Authorization` request header, `none` when
absent; `expected` is the configured shared secret `EXPECTED_API_KEY`
(the empty string when unset, matching `os.getenv(..., "")`). -/

inductive AuthResult where
  | ok : AuthResult
  | httpError : Nat → AuthResult
deriving DecidableEq, Repr

/-- `verify_api_key` of app.py: 500 when no key is configured, 401
without a `Bearer ` prefix, 403 on mismatch of the remainder
(`auth[7:]`).  String tests are modelled on the character lists. -/
def verify_api_key (expected : String) (hdr : Option String) : AuthResult :=
  if expected = "" then AuthResult.httpError 500
  else
    let auth := hdr.getD ("")
    if ¬ (("Bearer ").toList.isPrefixOf auth.toList) then AuthResult.httpError 401
    else if auth.toList.drop 7 ≠ expected.toList then AuthResult.httpError 403
    else AuthResult.ok

/-- Python `auth.split(" ", 1)[1]`: everything after the first space. -/
def afterFirstSpace : List Char → List Char
  | [] => []
  | c :: rest => if c = ' ' then rest else afterFirstSpace rest

/-- `check_openwebui_key` of main.py: when no key is configured the
request passes; otherwise a case-insensitive `bearer ` prefix check
(401), then the supplied token is everything after the first space,
stripped, compared with the key (403). -/
def check_openwebui_key (expected : String) (hdr : Option String) : AuthResult :=
  if expected = "" then AuthResult.ok
  else
    let auth := hdr.getD ("")
    if ¬ (("bearer ").toList.isPrefixOf (auth.toList.map Char.toLower)) then
      AuthResult.httpError 401
    else if stripChars (afterFirstSpace auth.toList) ≠ expected.toList then
      AuthResult.httpError 403
    else AuthResult.ok

/-- C7 counterexample: the claim that the API-key check responds 500
when no shared secret is configured fails for main.py's
`check_openwebui_key`, which lets every request through in that case. -/
theorem C7_counterexample :
    check_openwebui_key ("") (some ("Bearer x")) = AuthResult.ok
      ∧ check_openwebui_key ("") none ≠ AuthResult.httpError 500 := by
  decide

theorem exists_isPrefixOf : ∀ (a b : List Char), (∃ t, a ++ t = b) →
    a.isPrefixOf b = true := by
  intro a
  induction a with
  | nil => intro b _; cases b <;> rfl
  | cons x as ih =>
    rintro b ⟨t, rfl⟩
    simp only [List.cons_append, List.isPrefixOf, beq_self_eq_true, Bool.true_and]
    exact ih _ ⟨t, rfl⟩

/-- C7 (amended): app.py's `verify_api_key` behaves as the claim says —
500 when no secret is configured (checked first), 401 when the header
is absent or lacks the `Bearer ` prefix, 403 when the token differs
from the secret, success otherwise; main.py's `check_openwebui_key`
instead lets every request proceed when no secret is configured, and
otherwise answers 401 without a case-insensitive `bearer ` prefix and
403 when the stripped text after the first space differs from the
secret. -/
theorem C7_auth_status_codes (expected : String) (hdr : Option String) :
    (expected = "" → verify_api_key expected hdr = AuthResult.httpError 500
        ∧ check_openwebui_key expected hdr = AuthResult.ok)
    ∧ (expected ≠ "" →
        ("Bearer ").toList.isPrefixOf (hdr.getD ("")).toList = false →
        verify_api_key expected hdr = AuthResult.httpError 401)
    ∧ (expected ≠ "" →
        ("Bearer ").toList.isPrefixOf (hdr.getD ("")).toList = true →
        (hdr.getD ("")).toList.drop 7 ≠ expected.toList →
        verify_api_key expected hdr = AuthResult.httpError 403)
    ∧ (expected ≠ "" →
        ("Bearer ").toList.isPrefixOf (hdr.getD ("")).toList = true →
        (hdr.getD ("")).toList.drop 7 = expected.toList →
        verify_api_key expected hdr = AuthResult.ok)
    ∧ (expected ≠ "" →
        ("bearer ").toList.isPrefixOf ((hdr.getD ("")).toList.map Char.toLower)
          = false →
        check_openwebui_key expected hdr = AuthResult.httpError 401)
    ∧ (expected ≠ "" →
        ("bearer ").toList.isPrefixOf ((hdr.getD ("")).toList.map Char.toLower)
          = true →
        stripChars (afterFirstSpace (hdr.getD ("")).toList) ≠ expected.toList →
        check_openwebui_key expected hdr = AuthResult.httpError 403)
    ∧ (expected ≠ "" →
        ("bearer ").toList.isPrefixOf ((hdr.getD ("")).toList.map Char.toLower)
          = true →
        stripChars (afterFirstSpace (hdr.getD ("")).toList) = expected.toList →
        check_openwebui_key expected hdr = AuthResult.ok) := by
  refine ⟨?_, ?_, ?_, ?_, ?_, ?_, ?_⟩
  · intro h0
    simp [verify_api_key, check_openwebui_key, h0]
  · intro h0 h1
    simp only [verify_api_key]
    rw [if_neg h0, h1]
    rw [if_pos (show ¬(false = true) from fun h => Bool.noConfusion h)]
  · intro h0 h1 h2
    simp only [verify_api_key]
    rw [if_neg h0, h1]
    rw [if_neg (not_not_intro rfl)]
    rw [if_pos h2]
  · intro h0 h1 h2
    simp only [verify_api_key]
    rw [if_neg h0, h1]
    rw [if_neg (not_not_intro rfl)]
    rw [if_neg (not_not_intro h2)]
  · intro h0 h1
    simp only [check_openwebui_key]
    rw [if_neg h0, h1]
    rw [if_pos (show ¬(false = true) from fun h => Bool.noConfusion h)]
  · intro h0 h1 h2
    simp only [check_openwebui_key]
    rw [if_neg h0, h1]
    rw [if_neg (not_not_intro rfl)]
    rw [if_pos h2]
  · intro h0 h1 h2
    simp only [check_openwebui_key]
    rw [if_neg h0, h1]
    rw [if_neg (not_not_intro rfl)]
    rw [if_neg (not_not_intro h2)]

/-- Witness for C7 (amended): a configured key with a wrong token is
rejected with 403 by app.py's check. -/
theorem C7_auth_status_codes_witness :
    verify_api_key ("k") (some ("Bearer wrong")) = AuthResult.httpError 403 :=
  (C7_auth_status_codes ("k") (some ("Bearer wrong"))).2.2.1
    (by decide) (by decide) (by decide)

/-! ## JSON bodies as association lists

A decoded JSON object is a list of key/value pairs; a key is present
exactly when `lookup` finds it, matching `"key" in body` and
`body.get(key, default)` in Python. -/

inductive JVal where
  | null : JVal
  | bool : Bool → JVal
  | num : Rat → JVal
  | str : String → JVal
  | arr : List JVal → JVal

/-- `body.get(k, d)`. -/
def dictGet (l : List (String × JVal)) (k : String) (d : JVal) : JVal :=
  match l.lookup k with
  | some v => v
  | none => d

/-- `body[k] = v`: replace the first binding of `k`, or append one. -/
def dictSet : List (String × JVal) → String → JVal → List (String × JVal)
  | [], k, v => [(k, v)]
  | (k', v') :: rest, k, v =>
    if k' = k then (k, v) :: rest else (k', v') :: dictSet rest k v

/-- Python truthiness of a JSON value. -/
def truthy : JVal → Bool
  | .null => false
  | .bool b => b
  | .num q => q ≠ 0
  | .str s => s ≠ ""
  | .arr l => !l.isEmpty

/-! ## Request translation (app.py lines 260-278) -/

/-- One entry of the `models:` configuration mapping. -/
structure ModelCfg where
  endpoint : String
  deployment : Option String
  strip_think_tags : Option Bool
  max_tokens_default : Option Rat

/-- The optional parameters passed through only when present. -/
def optionalKeys : List String := ["stop", "frequency_penalty", "presence_penalty"]

/-- The `foundry_body` dict built by `chat_completions`:
`streamVal` is the raw value of the inbound `stream` field (default
`false`), stored unchanged. -/
def buildFoundryBody (body : List (String × JVal)) (deployment : String)
    (max_tokens_default : Rat) (streamVal : JVal) : List (String × JVal) :=
  [("messages", dictGet body ("messages") (JVal.arr [])),
   ("model", JVal.str deployment),
   ("max_tokens", dictGet body ("max_tokens") (JVal.num max_tokens_default)),
   ("temperature", dictGet body ("temperature") (JVal.num (0.7 : Rat))),
   ("top_p", dictGet body ("top_p") (JVal.num (0.95 : Rat))),
   ("stream", streamVal)]
  ++ optionalKeys.filterMap fun k => (body.lookup k).map fun v => (k, v)

/-! ## Route decision of app.py chat_completions (lines 240-304) -/

inductive Route where
  | notConfigured : JVal → List String → Route
  | streamRoute : List (String × JVal) → Bool → Route
  | jsonRoute : List (String × JVal) → Bool → Route

/-- The request-handling decisions of app.py's `chat_completions` up to
the upstream call: resolve the model (404 with the available ids when
unknown), build the upstream body, and choose the streaming or the
non-streaming path by the truthiness of the inbound `stream` field. -/
def chat_completions (models : List (String × ModelCfg))
    (body : List (String × JVal)) : Route :=
  let modelVal := dictGet body ("model") (JVal.str (""))
  let streamVal := dictGet body ("stream") (JVal.bool false)
  match modelVal with
  | JVal.str model_id =>
    match models.lookup model_id with
    | none => Route.notConfigured modelVal (models.map Prod.fst)
    | some cfg =>
      let deployment := cfg.deployment.getD model_id
      let should_filter := (ModelCfg.strip_think_tags cfg).getD true
      let dflt := cfg.max_tokens_default.getD 4096
      let fb := buildFoundryBody body deployment dflt streamVal
      if truthy streamVal then Route.streamRoute fb should_filter
      else Route.jsonRoute fb should_filter
  | v => Route.notConfigured v (models.map Prod.fst)

/-! ## main.py chat_completions (lines 49-80) -/

/-- The body main.py sends upstream: `body["model"] = body.get("model")
or DEFAULT_MODEL` then `body["stream"] = False`. -/
def main_request_body (body : List (String × JVal)) (defaultModel : String) :
    List (String × JVal) :=
  dictSet
    (dictSet body ("model")
      (let mv := dictGet body ("model") JVal.null
       if truthy mv then mv else JVal.str defaultModel))
    ("stream") (JVal.bool false)

structure MainResult where
  isStream : Bool
  sentBody : List (String × JVal)

/-- main.py's handler: it always issues a plain (non-streaming) POST
and always returns a JSONResponse — there is no streaming path. -/
def main_chat_completions (defaultModel : String)
    (body : List (String × JVal)) : MainResult :=
  ⟨false, main_request_body body defaultModel⟩

theorem dictSet_lookup_self (l : List (String × JVal)) (k : String) (v : JVal) :
    (dictSet l k v).lookup k = some v := by
  induction l with
  | nil => simp [dictSet, List.lookup]
  | cons p rest ih =>
    obtain ⟨k', v'⟩ := p
    by_cases hk : k' = k
    · subst hk
      simp [dictSet, List.lookup]
    · simp only [dictSet, if_neg hk, List.lookup]
      have hbe : (k == k') = false := by
        simp only [beq_eq_false_iff_ne, ne_eq]
        intro he
        exact hk he.symm
      rw [hbe]
      exact ih

/-! ## C9: request translation -/

/-- C9: the upstream body passes `messages` through (defaulting to the
empty array), replaces `model` by the backend deployment name, defaults
`max_tokens` to the model's configured default, `temperature` to 0.7
and `top_p` to 0.95 exactly when absent, carries the inbound `stream`
value, and contains each of `stop`, `frequency_penalty`,
`presence_penalty` with its inbound value exactly when the key is
present inbound — absence introduces no key. -/
theorem C9_request_translation (body : List (String × JVal))
    (deployment : String) (dflt : Rat) (streamVal : JVal) :
    (buildFoundryBody body deployment dflt streamVal).lookup ("messages")
        = some (dictGet body ("messages") (JVal.arr []))
    ∧ (∀ v, body.lookup ("messages") = some v →
        (buildFoundryBody body deployment dflt streamVal).lookup ("messages")
          = some v)
    ∧ (buildFoundryBody body deployment dflt streamVal).lookup ("model")
        = some (JVal.str deployment)
    ∧ (body.lookup ("max_tokens") = none →
        (buildFoundryBody body deployment dflt streamVal).lookup ("max_tokens")
          = some (JVal.num dflt))
    ∧ (∀ v, body.lookup ("max_tokens") = some v →
        (buildFoundryBody body deployment dflt streamVal).lookup ("max_tokens")
          = some v)
    ∧ (body.lookup ("temperature") = none →
        (buildFoundryBody body deployment dflt streamVal).lookup ("temperature")
          = some (JVal.num (0.7 : Rat)))
    ∧ (∀ v, body.lookup ("temperature") = some v →
        (buildFoundryBody body deployment dflt streamVal).lookup ("temperature")
          = some v)
    ∧ (body.lookup ("top_p") = none →
        (buildFoundryBody body deployment dflt streamVal).lookup ("top_p")
          = some (JVal.num (0.95 : Rat)))
    ∧ (∀ v, body.lookup ("top_p") = some v →
        (buildFoundryBody body deployment dflt streamVal).lookup ("top_p")
          = some v)
    ∧ (buildFoundryBody body deployment dflt streamVal).lookup ("stream")
        = some streamVal
    ∧ (∀ k, k ∈ optionalKeys →
        (buildFoundryBody body deployment dflt streamVal).lookup k
          = body.lookup k) := by
  refine ⟨rfl, ?_, rfl, ?_, ?_, ?_, ?_, ?_, ?_, rfl, ?_⟩
  · intro v h
    have hr : (buildFoundryBody body deployment dflt streamVal).lookup ("messages")
        = some (dictGet body ("messages") (JVal.arr [])) := rfl
    rw [hr]
    simp [dictGet, h]
  · intro h
    have hr : (buildFoundryBody body deployment dflt streamVal).lookup ("max_tokens")
        = some (dictGet body ("max_tokens") (JVal.num dflt)) := rfl
    rw [hr]
    simp [dictGet, h]
  · intro v h
    have hr : (buildFoundryBody body deployment dflt streamVal).lookup ("max_tokens")
        = some (dictGet body ("max_tokens") (JVal.num dflt)) := rfl
    rw [hr]
    simp [dictGet, h]
  · intro h
    have hr : (buildFoundryBody body deployment dflt streamVal).lookup ("temperature")
        = some (dictGet body ("temperature") (JVal.num (0.7 : Rat))) := rfl
    rw [hr]
    simp [dictGet, h]
  · intro v h
    have hr : (buildFoundryBody body deployment dflt streamVal).lookup ("temperature")
        = some (dictGet body ("temperature") (JVal.num (0.7 : Rat))) := rfl
    rw [hr]
    simp [dictGet, h]
  · intro h
    have hr : (buildFoundryBody body deployment dflt streamVal).lookup ("top_p")
        = some (dictGet body ("top_p") (JVal.num (0.95 : Rat))) := rfl
    rw [hr]
    simp [dictGet, h]
  · intro v h
    have hr : (buildFoundryBody body deployment dflt streamVal).lookup ("top_p")
        = some (dictGet body ("top_p") (JVal.num (0.95 : Rat))) := rfl
    rw [hr]
    simp [dictGet, h]
  · intro k hk
    have hk' : k = "stop" ∨ k = "frequency_penalty" ∨ k = "presence_penalty" := by
      simpa [optionalKeys] using hk
    cases h1 : body.lookup ("stop") <;>
      cases h2 : body.lookup ("frequency_penalty") <;>
        cases h3 : body.lookup ("presence_penalty") <;>
          rcases hk' with rfl | rfl | rfl <;>
            simp [buildFoundryBody, optionalKeys, List.filterMap_cons,
              h1, h2, h3, List.lookup]

/-- Witness for C9 at a body carrying only `temperature` and `stop`:
`max_tokens` gets the configured default and `stop` is copied through
while the other optional keys stay absent. -/
theorem C9_request_translation_witness :
    (buildFoundryBody ([(("temperature"), JVal.num 1), (("stop"), JVal.str ("x"))])
        ("dep") 4096 (JVal.bool false)).lookup ("max_tokens")
      = some (JVal.num 4096) :=
  (C9_request_translation
      ([(("temperature"), JVal.num 1), (("stop"), JVal.str ("x"))])
      ("dep") 4096 (JVal.bool false)).2.2.2.1 rfl

/-! ## C8: streaming intent -/

/-- C8 counterexample: main.py ignores the caller's streaming intent —
its handler always returns a plain JSON response and always sets the
upstream `stream` field to `false`, even when the inbound body says
`stream: true`. -/
theorem C8_counterexample :
    (main_chat_completions ("m") ([(("stream"), JVal.bool true)])).isStream = false
      ∧ (main_chat_completions ("m")
          ([(("stream"), JVal.bool true)])).sentBody.lookup ("stream")
        = some (JVal.bool false)
      ∧ some (JVal.bool false) ≠ some (JVal.bool true) := by
  refine ⟨rfl, dictSet_lookup_self _ _ _, ?_⟩
  intro h
  injection h with h1
  injection h1 with h2
  exact Bool.noConfusion h2

/-- C8 (amended): in app.py's `chat_completions` the response path is
the streaming one exactly when the inbound `stream` field is `true`
(single JSON when `false` or absent), and the upstream body's `stream`
field carries the caller's value; main.py's handler instead always
sends `stream: false` upstream and always answers with a single JSON
response. -/
theorem C8_streaming_intent_amended (models : List (String × ModelCfg))
    (body : List (String × JVal)) (mid : String) (cfg : ModelCfg)
    (hm : dictGet body ("model") (JVal.str ("")) = JVal.str mid)
    (hc : models.lookup mid = some cfg) :
    (dictGet body ("stream") (JVal.bool false) = JVal.bool true →
      chat_completions models body
          = Route.streamRoute
              (buildFoundryBody body (cfg.deployment.getD mid)
                (cfg.max_tokens_default.getD 4096) (JVal.bool true))
              ((ModelCfg.strip_think_tags cfg).getD true)
        ∧ (buildFoundryBody body (cfg.deployment.getD mid)
            (cfg.max_tokens_default.getD 4096) (JVal.bool true)).lookup ("stream")
          = some (JVal.bool true))
    ∧ (dictGet body ("stream") (JVal.bool false) = JVal.bool false →
      chat_completions models body
          = Route.jsonRoute
              (buildFoundryBody body (cfg.deployment.getD mid)
                (cfg.max_tokens_default.getD 4096) (JVal.bool false))
              ((ModelCfg.strip_think_tags cfg).getD true)
        ∧ (buildFoundryBody body (cfg.deployment.getD mid)
            (cfg.max_tokens_default.getD 4096) (JVal.bool false)).lookup ("stream")
          = some (JVal.bool false))
    ∧ (∀ dm b, (main_chat_completions dm b).isStream = false
        ∧ (main_chat_completions dm b).sentBody.lookup ("stream")
          = some (JVal.bool false)) := by
  refine ⟨?_, ?_, ?_⟩
  · intro h
    constructor
    · simp only [chat_completions, hm, hc, h]
      simp [truthy]
    · rfl
  · intro h
    constructor
    · simp only [chat_completions, hm, hc, h]
      simp [truthy]
    · rfl
  · intro dm b
    exact ⟨rfl, dictSet_lookup_self _ _ _⟩

/-- Witness for C8 (amended): a configured model with `stream: true`
takes the streaming route with `stream: true` sent upstream. -/
theorem C8_streaming_intent_amended_witness :
    chat_completions ([(("m"), (⟨("e"), none, none, none⟩ : ModelCfg))])
        ([(("stream"), JVal.bool true), (("model"), JVal.str ("m"))])
      = Route.streamRoute
          (buildFoundryBody
            ([(("stream"), JVal.bool true), (("model"), JVal.str ("m"))])
            ("m") 4096 (JVal.bool true)) true
    ∧ (buildFoundryBody
        ([(("stream"), JVal.bool true), (("model"), JVal.str ("m"))])
        ("m") 4096 (JVal.bool true)).lookup ("stream")
      = some (JVal.bool true) :=
  (C8_streaming_intent_amended
      ([(("m"), (⟨("e"), none, none, none⟩ : ModelCfg))])
      ([(("stream"), JVal.bool true), (("model"), JVal.str ("m"))])
      ("m") ⟨("e"), none, none, none⟩ rfl rfl).1 rfl

/-! ## The streaming event loop `generate` (app.py lines 348-434)

Decoded upstream units are the spec's tagged union: a line that does
not start with `data: ` (skipped), the `[DONE]` marker, an undecodable
payload (skipped), a metadata-only chunk (forwarded unchanged), or a
chunk carrying a content delta.  Output messages: `OutMsg.done` stands
for the literal terminator line `data: [DONE]\n\n`, `errorEvent` for a
synthesized `data: <error json>\n\n` event, `forward` for a chunk
forwarded unchanged, and `contentMsg` for a re-wrapped or flush-time
content chunk. -/

inductive UpEvent where
  | nonData : UpEvent
  | doneMarker : UpEvent
  | badJson : UpEvent
  | control : UpEvent
  | content : List Char → UpEvent
deriving DecidableEq, Repr

inductive StreamEnd where
  | clean : StreamEnd
  | timeout : StreamEnd
  | connError : StreamEnd
deriving DecidableEq, Repr

inductive Upstream where
  | badStatus : Nat → Upstream
  | stream : List UpEvent → StreamEnd → Upstream

inductive OutMsg where
  | errorEvent : String → String → OutMsg
  | forward : OutMsg
  | contentMsg : List Char → OutMsg
  | done : OutMsg
deriving DecidableEq, Repr

/-- The body of the `async for` loop over upstream lines, threading the
optional filter state (`none` when `should_filter` is false).  Returns
the yielded messages and whether the loop hit the `[DONE]` marker (and
so returned after yielding the terminator).  When no filter is active a
content chunk is forwarded unchanged whether or not its delta is empty,
matching the `if not delta` / `else` branches of the code, which
coincide in that case. -/
def processEvents : Option FilterState → List UpEvent → List OutMsg × Bool
  | _, [] => ([], false)
  | filt, UpEvent.nonData :: rest => processEvents filt rest
  | filt, UpEvent.badJson :: rest => processEvents filt rest
  | none, UpEvent.doneMarker :: _ => ([OutMsg.done], true)
  | some st, UpEvent.doneMarker :: _ =>
    (if flush st ≠ [] then [OutMsg.contentMsg (flush st), OutMsg.done]
     else [OutMsg.done], true)
  | filt, UpEvent.control :: rest =>
    let r := processEvents filt rest
    (OutMsg.forward :: r.1, r.2)
  | none, UpEvent.content _ :: rest =>
    let r := processEvents none rest
    (OutMsg.forward :: r.1, r.2)
  | some st, UpEvent.content delta :: rest =>
    if delta = [] then
      let r := processEvents (some st) rest
      (OutMsg.forward :: r.1, r.2)
    else
      let r := processEvents (some (process_text st delta).1) rest
      (if (process_text st delta).2 ≠ []
       then OutMsg.contentMsg (process_text st delta).2 :: r.1
       else r.1, r.2)

/-- The `generate` generator: on a non-200 upstream status, one error
event and the terminator; otherwise the event loop, then — only when
the loop did not already end at the `[DONE]` marker — nothing on clean
exhaustion, or a synthesized error event plus terminator on a timeout
or connection error raised mid-stream. -/
def generate (should_filter : Bool) (up : Upstream) : List OutMsg :=
  match up with
  | Upstream.badStatus code =>
    [OutMsg.errorEvent ("Foundry returned " ++ toString code) ("upstream_error"),
      OutMsg.done]
  | Upstream.stream events ending =>
    let filt : Option FilterState := if should_filter then some initState else none
    let r := processEvents filt events
    if r.2 then r.1
    else
      r.1 ++ (match ending with
        | StreamEnd.clean => []
        | StreamEnd.timeout =>
          [OutMsg.errorEvent ("Foundry request timed out") ("timeout"), OutMsg.done]
        | StreamEnd.connError =>
          [OutMsg.errorEvent ("Connection error") ("connection_error"), OutMsg.done])

theorem getLast?_cons_of_getLast? (x : OutMsg) (l : List OutMsg) (m : OutMsg)
    (h : l.getLast? = some m) : (x :: l).getLast? = some m := by
  cases l with
  | nil => exact absurd h (by simp)
  | cons y ys => rw [List.getLast?_cons_cons]; exact h

theorem getLast?_append_two (l : List OutMsg) (a b : OutMsg) :
    (l ++ [a, b]).getLast? = some b := by
  induction l with
  | nil => rfl
  | cons x xs ih => exact getLast?_cons_of_getLast? x _ b ih

theorem processEvents_finished_done (evs : List UpEvent) :
    ∀ filt, (processEvents filt evs).2 = true →
      (processEvents filt evs).1.getLast? = some OutMsg.done := by
  induction evs with
  | nil => intro filt h; exact absurd h (by simp [processEvents])
  | cons e rest ih =>
    intro filt h
    cases e with
    | nonData =>
      cases filt <;> exact ih _ h
    | badJson =>
      cases filt <;> exact ih _ h
    | doneMarker =>
      cases filt with
      | none => rfl
      | some st =>
        simp only [processEvents]
        by_cases hf : flush st ≠ []
        · rw [if_pos hf]
          rfl
        · rw [if_neg hf]
          rfl
    | control =>
      cases filt with
      | none =>
        simp only [processEvents] at h ⊢
        exact getLast?_cons_of_getLast? _ _ _ (ih none h)
      | some st =>
        simp only [processEvents] at h ⊢
        exact getLast?_cons_of_getLast? _ _ _ (ih (some st) h)
    | content delta =>
      cases filt with
      | none =>
        simp only [processEvents] at h ⊢
        exact getLast?_cons_of_getLast? _ _ _ (ih none h)
      | some st =>
        simp only [processEvents] at h ⊢
        by_cases hd : delta = []
        · rw [if_pos hd] at h ⊢
          exact getLast?_cons_of_getLast? _ _ _ (ih (some st) h)
        · rw [if_neg hd] at h ⊢
          by_cases ho : (process_text st delta).2 ≠ []
          · rw [if_pos ho]
            exact getLast?_cons_of_getLast? _ _ _
              (ih (some (process_text st delta).1) h)
          · rw [if_neg ho]
            exact ih (some (process_text st delta).1) h

theorem processEvents_mem_done (evs : List UpEvent) :
    ∀ filt, UpEvent.doneMarker ∈ evs → (processEvents filt evs).2 = true := by
  induction evs with
  | nil => intro filt h; exact absurd h (by simp)
  | cons e rest ih =>
    intro filt h
    cases e with
    | doneMarker =>
      cases filt with
      | none => rfl
      | some st => rfl
    | nonData =>
      have hr : UpEvent.doneMarker ∈ rest := by
        rcases List.mem_cons.mp h with h0 | h0
        · exact absurd h0 (by simp)
        · exact h0
      cases filt <;> exact ih _ hr
    | badJson =>
      have hr : UpEvent.doneMarker ∈ rest := by
        rcases List.mem_cons.mp h with h0 | h0
        · exact absurd h0 (by simp)
        · exact h0
      cases filt <;> exact ih _ hr
    | control =>
      have hr : UpEvent.doneMarker ∈ rest := by
        rcases List.mem_cons.mp h with h0 | h0
        · exact absurd h0 (by simp)
        · exact h0
      cases filt with
      | none =>
        simp only [processEvents]
        exact ih none hr
      | some st =>
        simp only [processEvents]
        exact ih (some st) hr
    | content delta =>
      have hr : UpEvent.doneMarker ∈ rest := by
        rcases List.mem_cons.mp h with h0 | h0
        · exact absurd h0 (by simp)
        · exact h0
      cases filt with
      | none =>
        simp only [processEvents]
        exact ih none hr
      | some st =>
        simp only [processEvents]
        by_cases hd : delta = []
        · rw [if_pos hd]
          exact ih (some st) hr
        · rw [if_neg hd]
          by_cases ho : (process_text st delta).2 ≠ []
          · rw [if_pos ho]
            exact ih (some (process_text st delta).1) hr
          · rw [if_neg ho]
            exact ih (some (process_text st delta).1) hr

/-- C4: terminator guarantee of the streaming path.  For every
upstream behaviour covered by the claim — normal termination (the
upstream `[DONE]` marker arrives), a non-success upstream status, a
timeout, or a connection failure once streaming has begun — the
message sequence `generate` writes to the client ends with the
terminator (`OutMsg.done`, the literal `data: [DONE]\n\n` line). -/
theorem C4_terminator_guarantee (should_filter : Bool) (up : Upstream)
    (h : ∀ evs, up = Upstream.stream evs StreamEnd.clean →
      UpEvent.doneMarker ∈ evs) :
    (generate should_filter up).getLast? = some OutMsg.done := by
  cases up with
  | badStatus code => rfl
  | stream evs ending =>
    simp only [generate]
    by_cases hfin : (processEvents
        (if should_filter then some initState else none) evs).2 = true
    · rw [if_pos hfin]
      exact processEvents_finished_done evs _ hfin
    · rw [if_neg hfin]
      cases ending with
      | clean =>
        exact absurd (processEvents_mem_done evs _ (h evs rfl)) hfin
      | timeout => exact getLast?_append_two _ _ _
      | connError => exact getLast?_append_two _ _ _

/-- Witness for C4: a stream with one content chunk followed by the
`[DONE]` marker, ending cleanly, terminates with `OutMsg.done`. -/
theorem C4_terminator_guarantee_witness :
    (generate true
        (Upstream.stream [UpEvent.content ['x'], UpEvent.doneMarker]
          StreamEnd.clean)).getLast? = some OutMsg.done :=
  C4_terminator_guarantee true
    (Upstream.stream [UpEvent.content ['x'], UpEvent.doneMarker] StreamEnd.clean)
    (by
      intro evs he
      injection he with h1 h2
      rw [← h1]
      decide)

end FoundryProxy
